import Mathlib

/-!
Verification of the core of `mobilnisvet_ads.py`: extraction of ad records
from a parsed HTML tree (`find_main_table`, `get_ad_tables`, `parse_ad_table`,
`get_ads`), natural-order deduplication (`remove_duplicates`), and snapshot
differencing (`show_diff`).

Modelling conventions:
* Python strings are Lean `String`s; Python code-point comparison of strings
  is modelled by an explicit boolean lexicographic comparison on the
  character lists (`strLt`), since it must evaluate inside the kernel.
* `natsort.natsorted` sorts by the natsort key of the attribute: the string
  is cut into alternating text and digit runs, digit runs comparing by
  numeric value.  The key is modelled by `natKey`, tuple comparison by
  `keyLt`/`keyLe`.
* Python's `sorted` is a stable sort; any stable sort computes the same
  list, so it is modelled by Mathlib's stable `List.insertionSort`.
* `itertools.groupby` groups consecutive elements with equal keys; it is
  modelled by `groupRuns`.
* Fallible Python code (exceptions) is modelled with `Except PyErr`.
-/

section LexOrder

variable {α : Type} [DecidableEq α]

/-- Boolean strict lexicographic comparison of lists, given a strict
comparison on elements; models Python tuple / sequence comparison
(first differing position decides, a strict prefix is smaller). -/
def lexLt (lt : α → α → Bool) : List α → List α → Bool
  | _, [] => false
  | [], _ :: _ => true
  | a :: as, b :: bs => lt a b || (decide (a = b) && lexLt lt as bs)

theorem lexLt_irrefl {lt : α → α → Bool} (hIrr : ∀ a, lt a a = false) :
    ∀ l, lexLt lt l l = false
  | [] => rfl
  | a :: as => by simp [lexLt, hIrr a, lexLt_irrefl hIrr as]

theorem lexLt_asym {lt : α → α → Bool} (hIrr : ∀ a, lt a a = false)
    (hAsym : ∀ a b, lt a b = true → lt b a = false) :
    ∀ xs ys, lexLt lt xs ys = true → lexLt lt ys xs = false
  | _, [], h => by simp [lexLt] at h
  | [], _ :: _, _ => rfl
  | a :: as, b :: bs, h => by
    simp only [lexLt, Bool.or_eq_true, Bool.and_eq_true, decide_eq_true_eq] at h ⊢
    rcases h with h1 | ⟨heq, h2⟩
    · have hba := hAsym a b h1
      have hne : ¬ b = a := by
        rintro rfl
        rw [hIrr] at h1
        exact Bool.false_ne_true h1
      simp [hba, hne]
    · subst heq
      simp [hIrr, lexLt_asym hIrr hAsym as bs h2]

theorem lexLt_trans {lt : α → α → Bool}
    (hTrans : ∀ a b c, lt a b = true → lt b c = true → lt a c = true) :
    ∀ xs ys zs, lexLt lt xs ys = true → lexLt lt ys zs = true → lexLt lt xs zs = true
  | _, _, [], _, h2 => by simp [lexLt] at h2
  | _, [], _ :: _, h1, _ => by simp [lexLt] at h1
  | [], _ :: _, _ :: _, _, _ => rfl
  | a :: as, b :: bs, c :: cs, h1, h2 => by
    simp only [lexLt, Bool.or_eq_true, Bool.and_eq_true, decide_eq_true_eq] at h1 h2 ⊢
    rcases h1 with h1 | ⟨heq1, h1'⟩
    · rcases h2 with h2 | ⟨heq2, h2'⟩
      · exact Or.inl (hTrans a b c h1 h2)
      · subst heq2; exact Or.inl h1
    · subst heq1
      rcases h2 with h2 | ⟨heq2, h2'⟩
      · exact Or.inl h2
      · subst heq2
        exact Or.inr ⟨rfl, lexLt_trans hTrans as bs cs h1' h2'⟩

theorem lexLt_conn {lt : α → α → Bool}
    (hConn : ∀ a b, lt a b = false → lt b a = false → a = b) :
    ∀ xs ys, lexLt lt xs ys = false → lexLt lt ys xs = false → xs = ys
  | [], [], _, _ => rfl
  | [], _ :: _, h1, _ => by simp [lexLt] at h1
  | _ :: _, [], _, h2 => by simp [lexLt] at h2
  | a :: as, b :: bs, h1, h2 => by
    simp only [lexLt, Bool.or_eq_false_iff, Bool.and_eq_false_iff,
      decide_eq_false_iff_not] at h1 h2
    obtain ⟨hab, h1'⟩ := h1
    obtain ⟨hba, h2'⟩ := h2
    have heq : a = b := hConn a b hab hba
    subst heq
    rcases h1' with h1' | h1'
    · exact absurd rfl h1'
    · rcases h2' with h2' | h2'
      · exact absurd rfl h2'
      · rw [lexLt_conn hConn as bs h1' h2']

end LexOrder

/-- Boolean strict comparison of characters by code point, as Python
compares the characters of a string. -/
def charLt (a b : Char) : Bool := decide (a < b)

theorem charLt_irrefl (a : Char) : charLt a a = false := by
  simp [charLt]

theorem charLt_asym (a b : Char) : charLt a b = true → charLt b a = false := by
  simp only [charLt, decide_eq_true_eq, decide_eq_false_iff_not]
  exact fun h => lt_asymm h

theorem charLt_trans (a b c : Char) :
    charLt a b = true → charLt b c = true → charLt a c = true := by
  simp only [charLt, decide_eq_true_eq]
  exact fun h1 h2 => lt_trans h1 h2

theorem charLt_conn (a b : Char) :
    charLt a b = false → charLt b a = false → a = b := by
  simp only [charLt, decide_eq_false_iff_not]
  intro h1 h2
  exact le_antisymm (not_lt.mp h2) (not_lt.mp h1)

/-- Python's `<` on strings: lexicographic comparison by code point. -/
def strLt (a b : String) : Bool := lexLt charLt a.data b.data

/-- Python's `<=` on strings (total order: `a <= b` iff `not (b < a)`). -/
def strLe (a b : String) : Bool := !(strLt b a)

theorem strLt_irrefl (a : String) : strLt a a = false :=
  lexLt_irrefl charLt_irrefl a.data

theorem strLt_asym (a b : String) : strLt a b = true → strLt b a = false :=
  lexLt_asym charLt_irrefl charLt_asym a.data b.data

theorem strLt_trans (a b c : String) :
    strLt a b = true → strLt b c = true → strLt a c = true :=
  lexLt_trans charLt_trans a.data b.data c.data

theorem strLt_conn (a b : String) :
    strLt a b = false → strLt b a = false → a = b := by
  intro h1 h2
  have h := lexLt_conn charLt_conn a.data b.data h1 h2
  cases a; cases b
  exact congrArg String.mk h

theorem strLt_irrefl_self (a : String) : strLt a a ≠ true := by
  simp [strLt_irrefl]

theorem strLe_total (a b : String) : strLe a b = true ∨ strLe b a = true := by
  unfold strLe
  cases h : strLt b a
  · simp
  · simp [strLt_asym b a h]

theorem strLe_refl (a : String) : strLe a a = true := by
  simp [strLe, strLt_irrefl]

theorem strLe_of_lt {a b : String} (h : strLt a b = true) : strLe a b = true := by
  simp [strLe, strLt_asym a b h]

theorem strLt_or_eq_of_le {a b : String} (h : strLe a b = true) :
    strLt a b = true ∨ a = b := by
  cases h2 : strLt a b
  · simp only [strLe, Bool.not_eq_true'] at h
    exact Or.inr (strLt_conn a b h2 h)
  · exact Or.inl rfl

theorem strLe_trans (a b c : String) :
    strLe a b = true → strLe b c = true → strLe a c = true := by
  intro h1 h2
  rcases strLt_or_eq_of_le h1 with h1' | rfl
  · rcases strLt_or_eq_of_le h2 with h2' | rfl
    · exact strLe_of_lt (strLt_trans a b c h1' h2')
    · exact strLe_of_lt h1'
  · exact h2

theorem strLe_antisymm (a b : String) :
    strLe a b = true → strLe b a = true → a = b := by
  intro h1 h2
  simp only [strLe, Bool.not_eq_true'] at h1 h2
  exact strLt_conn a b h2 h1

/-- A chunk of a natsort key: a text run or a digit run read as a number. -/
inductive Chunk where
  | str : String → Chunk
  | num : Nat → Chunk
deriving DecidableEq

/-- Strict comparison of natsort-key chunks.  Digit runs compare by numeric
value, text runs by code point.  Mixed comparisons never arise between two
natsort keys at the same position (keys alternate text/number starting with
text), so their order is a fixed arbitrary convention. -/
def Chunk.lt : Chunk → Chunk → Bool
  | .num a, .num b => decide (a < b)
  | .str a, .str b => strLt a b
  | .num _, .str _ => true
  | .str _, .num _ => false

theorem Chunk.lt_irrefl : ∀ a, Chunk.lt a a = false
  | .str s => strLt_irrefl s
  | .num _ => by simp [Chunk.lt]

theorem Chunk.lt_asym : ∀ a b, Chunk.lt a b = true → Chunk.lt b a = false
  | .str s, .str t => strLt_asym s t
  | .str _, .num _ => fun h => by simp [Chunk.lt] at h
  | .num _, .str _ => fun _ => rfl
  | .num m, .num n => fun h => by
      simp only [Chunk.lt, decide_eq_true_eq] at h
      simp only [Chunk.lt, decide_eq_false_iff_not]
      exact Nat.lt_asymm h

theorem Chunk.lt_trans : ∀ a b c,
    Chunk.lt a b = true → Chunk.lt b c = true → Chunk.lt a c = true
  | .str a, .str b, .str c => strLt_trans a b c
  | .str _, .str _, .num _ => fun _ h2 => by simp [Chunk.lt] at h2
  | .str _, .num _, _ => fun h1 _ => by simp [Chunk.lt] at h1
  | .num _, .str _, .str _ => fun _ _ => rfl
  | .num _, .str _, .num _ => fun _ h2 => by simp [Chunk.lt] at h2
  | .num _, .num _, .str _ => fun _ _ => rfl
  | .num a, .num b, .num c => fun h1 h2 => by
      simp only [Chunk.lt, decide_eq_true_eq] at h1 h2 ⊢
      exact Nat.lt_trans h1 h2

theorem Chunk.lt_conn : ∀ a b, Chunk.lt a b = false → Chunk.lt b a = false → a = b
  | .str a, .str b => fun h1 h2 => by rw [strLt_conn a b h1 h2]
  | .str _, .num _ => fun _ h2 => by simp [Chunk.lt] at h2
  | .num _, .str _ => fun h1 _ => by simp [Chunk.lt] at h1
  | .num a, .num b => fun h1 h2 => by
      simp only [Chunk.lt, decide_eq_false_iff_not] at h1 h2
      rw [Nat.le_antisymm (Nat.le_of_not_lt h2) (Nat.le_of_not_lt h1)]

/-- Strict comparison of natsort keys: Python tuple comparison of chunks. -/
def keyLt (a b : List Chunk) : Bool := lexLt Chunk.lt a b

/-- Non-strict comparison of natsort keys: `a <= b` iff `not (b < a)`. -/
def keyLe (a b : List Chunk) : Bool := !(keyLt b a)

theorem keyLt_irrefl (a : List Chunk) : keyLt a a = false :=
  lexLt_irrefl Chunk.lt_irrefl a

theorem keyLt_asym (a b : List Chunk) : keyLt a b = true → keyLt b a = false :=
  lexLt_asym Chunk.lt_irrefl Chunk.lt_asym a b

theorem keyLt_trans (a b c : List Chunk) :
    keyLt a b = true → keyLt b c = true → keyLt a c = true :=
  lexLt_trans Chunk.lt_trans a b c

theorem keyLt_conn (a b : List Chunk) :
    keyLt a b = false → keyLt b a = false → a = b :=
  lexLt_conn Chunk.lt_conn a b

theorem keyLe_total (a b : List Chunk) : keyLe a b = true ∨ keyLe b a = true := by
  unfold keyLe
  cases h : keyLt b a
  · simp
  · simp [keyLt_asym b a h]

theorem keyLe_refl (a : List Chunk) : keyLe a a = true := by
  simp [keyLe, keyLt_irrefl]

theorem keyLe_of_lt {a b : List Chunk} (h : keyLt a b = true) : keyLe a b = true := by
  simp [keyLe, keyLt_asym a b h]

theorem keyLt_or_eq_of_le {a b : List Chunk} (h : keyLe a b = true) :
    keyLt a b = true ∨ a = b := by
  cases h2 : keyLt a b
  · simp only [keyLe, Bool.not_eq_true'] at h
    exact Or.inr (keyLt_conn a b h2 h)
  · exact Or.inl rfl

theorem keyLe_trans (a b c : List Chunk) :
    keyLe a b = true → keyLe b c = true → keyLe a c = true := by
  intro h1 h2
  rcases keyLt_or_eq_of_le h1 with h1' | rfl
  · rcases keyLt_or_eq_of_le h2 with h2' | rfl
    · exact keyLe_of_lt (keyLt_trans a b c h1' h2')
    · exact keyLe_of_lt h1'
  · exact h2

theorem keyLe_antisymm (a b : List Chunk) :
    keyLe a b = true → keyLe b a = true → a = b := by
  intro h1 h2
  simp only [keyLe, Bool.not_eq_true'] at h1 h2
  exact keyLt_conn a b h2 h1

theorem keyLt_of_le_of_ne {a b : List Chunk} (h : keyLe a b = true) (hne : a ≠ b) :
    keyLt a b = true := by
  rcases keyLt_or_eq_of_le h with h' | rfl
  · exact h'
  · exact absurd rfl hne

/-- Reads a run of decimal digit characters as a number, as Python's `int`
does inside natsort (leading zeros are insignificant: `"01"` reads as `1`). -/
def digitsToNat (ds : List Char) : Nat :=
  ds.foldl (fun n c => n * 10 + (c.toNat - 48)) 0

/-- Cuts a character list into alternating text and digit runs (the heart of
the natsort key).  Fuelled so that it evaluates inside the kernel; the fuel
is always at least the length of the list, which suffices. -/
def chunkifyF : Nat → List Char → List Chunk
  | 0, _ => []
  | _, [] => []
  | fuel + 1, c :: cs =>
    if c.isDigit then
      Chunk.num (digitsToNat (c :: cs.takeWhile Char.isDigit))
        :: chunkifyF fuel (cs.dropWhile Char.isDigit)
    else
      Chunk.str (String.mk (c :: cs.takeWhile (fun x => !x.isDigit)))
        :: chunkifyF fuel (cs.dropWhile (fun x => !x.isDigit))

def chunkify (cs : List Char) : List Chunk := chunkifyF cs.length cs

/-- The natsort key of a string under natsort's default settings (`ns.INT`,
case sensitive): alternating text and digit runs, starting with a (possibly
empty) text run, digit runs compared numerically.  Models
`natsort.natsort_keygen()` restricted to ASCII digit runs. -/
def natKey (s : String) : List Chunk :=
  match s.data with
  | [] => [Chunk.str ""]
  | c :: cs =>
    if c.isDigit then Chunk.str "" :: chunkify (c :: cs) else chunkify (c :: cs)

/-- The `AdInfo` namedtuple of `mobilnisvet_ads.py`: one ad record, all six
fields are strings. -/
structure AdInfo where
  title : String
  price : String
  new_price : String
  text : String
  contact_number : String
  date : String
deriving DecidableEq, Inhabited

/-- The identity triple used by the deduplication claims. -/
def tripleOf (a : AdInfo) : String × String × String :=
  (a.title, a.price, a.contact_number)

/-- The `old_ads` list of `show_diff`:
`[x for x in all_old_ads if x not in all_new_ads]`.  (The printing done by
`show_diff` is presentation I/O and is not modelled.) -/
def show_diff_old_ads (all_old_ads all_new_ads : List AdInfo) : List AdInfo :=
  all_old_ads.filter fun x => !(decide (x ∈ all_new_ads))

/-- The `new_ads` list of `show_diff`:
`[x for x in all_new_ads if x not in all_old_ads]`. -/
def show_diff_new_ads (all_old_ads all_new_ads : List AdInfo) : List AdInfo :=
  all_new_ads.filter fun x => !(decide (x ∈ all_old_ads))

/-- The comparison `natsorted(l, key=key_f)` sorts with: natsort key of the
attribute, compared as a tuple. -/
def nkeyRel {α : Type} (key : α → String) (a b : α) : Prop :=
  keyLe (natKey (key a)) (natKey (key b)) = true

instance {α : Type} (key : α → String) : DecidableRel (nkeyRel key) :=
  fun a b => instDecidableEqBool _ _

instance {α : Type} (key : α → String) : IsTotal α (nkeyRel key) :=
  ⟨fun _ _ => keyLe_total _ _⟩

instance {α : Type} (key : α → String) : IsTrans α (nkeyRel key) :=
  ⟨fun _ _ _ => keyLe_trans _ _ _⟩

/-- `natsorted(l, key=key_f)`: stable sort of `l` by the natsort key of the
attribute.  Python's sort is stable, and every stable sort by a total
preorder computes the same list, so the stable `List.insertionSort` is an
exact model. -/
def natsorted {α : Type} (key : α → String) (l : List α) : List α :=
  List.insertionSort (nkeyRel key) l

/-- `itertools.groupby(sorted_list, key_f)`: splits a list into maximal runs
of consecutive elements whose key strings are equal (Python `==` on the
attribute), in order. -/
def groupRuns {α : Type} (key : α → String) : List α → List (List α)
  | [] => []
  | a :: l =>
    match groupRuns key l with
    | (b :: g) :: gs =>
      if key a = key b then (a :: b :: g) :: gs else [a] :: (b :: g) :: gs
    | gs => [a] :: gs

/-- The `sort_group` helper of `remove_duplicates`: natsort by the attribute,
then group consecutive equal attribute values.  The groupby keys are
recoverable from the members, so only the groups are kept. -/
def sort_group {α : Type} (key : α → String) (l : List α) : List (List α) :=
  groupRuns key (natsorted key l)

/-- The comparison of `sorted(contact_group, reverse=True, key=lambda x: x.date)`:
a stable descending sort by `date`, i.e. a stable sort under the relation
`b.date <= a.date`. -/
def dateGeRel (a b : AdInfo) : Prop := strLe b.date a.date = true

instance : DecidableRel dateGeRel :=
  fun a b => instDecidableEqBool _ _

instance : IsTotal AdInfo dateGeRel :=
  ⟨fun a b => (strLe_total b.date a.date).elim Or.inl Or.inr⟩

instance : IsTrans AdInfo dateGeRel :=
  ⟨fun _ b _ h1 h2 => strLe_trans _ b.date _ h2 h1⟩

/-- `sorted(contact_group, reverse=True, key=lambda x: x.date)[0]`, as the
one-element list it contributes to the yielded sequence.  The groups fed to
it are never empty, so `take 1` is exactly the `[0]` element. -/
def newest (contact_group : List AdInfo) : List AdInfo :=
  (List.insertionSort dateGeRel contact_group).take 1

/-- The innermost loop of `remove_duplicates`: for each contact-number group
of a price group, yield the newest ad. -/
def dedupe_contact (price_group : List AdInfo) : List AdInfo :=
  (sort_group (fun x => x.contact_number) price_group).flatMap newest

/-- The middle loop of `remove_duplicates`: split a title group by price. -/
def dedupe_price (title_group : List AdInfo) : List AdInfo :=
  (sort_group (fun x => x.price) title_group).flatMap dedupe_contact

/-- `remove_duplicates(ads)`: group by title, then price, then contact
number (each grouping being natsort followed by `groupby`), and yield the
newest ad of every innermost group, in loop order. -/
def remove_duplicates (ads : List AdInfo) : List AdInfo :=
  (sort_group (fun x => x.title) ads).flatMap dedupe_price


section GroupRunsTheory

variable {α : Type}

/-- Unfolding of `groupRuns` on a nonempty list: the first group is the
maximal leading run of the head's key, and the rest is `groupRuns` of the
remainder. -/
theorem groupRuns_shape (key : α → String) (a : α) :
    ∀ l : List α, ∃ r s, l = r ++ s ∧
      groupRuns key (a :: l) = (a :: r) :: groupRuns key s ∧
      (∀ x ∈ r, key x = key a) ∧
      (∀ x, s.head? = some x → key x ≠ key a) := by
  intro l
  induction l generalizing a with
  | nil => exact ⟨[], [], rfl, rfl, by simp, by simp⟩
  | cons b l2 ih =>
    obtain ⟨r, s, hls, hgr, hkeys, hbound⟩ := ih b
    by_cases hab : key a = key b
    · refine ⟨b :: r, s, by simp [hls], ?_, ?_, ?_⟩
      · show (match groupRuns key (b :: l2) with
          | (c :: g) :: gs =>
            if key a = key c then (a :: c :: g) :: gs else [a] :: (c :: g) :: gs
          | gs => [a] :: gs) = (a :: b :: r) :: groupRuns key s
        rw [hgr]
        simp [hab]
      · intro x hx
        rcases hx with _ | hx
        · exact hab.symm
        · exact (hkeys x (by assumption)).trans hab.symm
      · intro x hx
        exact fun hc => hbound x hx (hc.trans hab)
    · refine ⟨[], b :: l2, rfl, ?_, by simp, ?_⟩
      · show (match groupRuns key (b :: l2) with
          | (c :: g) :: gs =>
            if key a = key c then (a :: c :: g) :: gs else [a] :: (c :: g) :: gs
          | gs => [a] :: gs) = [a] :: groupRuns key (b :: l2)
        rw [hgr]
        simp [hab]
      · intro x hx hc
        simp only [List.head?_cons, Option.some.injEq] at hx
        subst hx
        exact hab hc.symm

theorem groupRuns_flatten_aux (key : α → String) :
    ∀ n, ∀ l : List α, l.length ≤ n → (groupRuns key l).flatten = l := by
  intro n
  induction n with
  | zero =>
    intro l h
    rw [List.length_eq_zero.mp (Nat.le_zero.mp h)]
    rfl
  | succ n ih =>
    intro l h
    match l with
    | [] => rfl
    | a :: l2 =>
      obtain ⟨r, s, hls, hgr, _, _⟩ := groupRuns_shape key a l2
      have hlen : s.length ≤ n := by
        have h2 : l2.length ≤ n := Nat.le_of_succ_le_succ h
        have : s.length ≤ l2.length := by
          rw [hls]; simp
        omega
      rw [hgr, List.flatten_cons, ih s hlen, hls, List.cons_append]

/-- The groups of `groupRuns` concatenate back to the input list. -/
theorem groupRuns_flatten (key : α → String) (l : List α) :
    (groupRuns key l).flatten = l :=
  groupRuns_flatten_aux key l.length l le_rfl

theorem mem_of_mem_groupRuns {key : α → String} {l : List α} {g : List α} {x : α}
    (hg : g ∈ groupRuns key l) (hx : x ∈ g) : x ∈ l := by
  rw [← groupRuns_flatten key l]
  exact List.mem_flatten.mpr ⟨g, hg, hx⟩

theorem groupRuns_ne_nil_aux (key : α → String) :
    ∀ n, ∀ l : List α, l.length ≤ n → ∀ g ∈ groupRuns key l, g ≠ [] := by
  intro n
  induction n with
  | zero =>
    intro l h
    rw [List.length_eq_zero.mp (Nat.le_zero.mp h)]
    intro g hg
    simp [groupRuns] at hg
  | succ n ih =>
    intro l h g hg
    match l with
    | [] => simp [groupRuns] at hg
    | a :: l2 =>
      obtain ⟨r, s, hls, hgr, _, _⟩ := groupRuns_shape key a l2
      rw [hgr] at hg
      rcases hg with _ | hg
      · simp
      · have hlen : s.length ≤ n := by
          have h2 : l2.length ≤ n := Nat.le_of_succ_le_succ h
          have : s.length ≤ l2.length := by rw [hls]; simp
          omega
        exact ih s hlen g (by assumption)

/-- Groups delivered by `groupRuns` are never empty. -/
theorem groupRuns_ne_nil {key : α → String} {l : List α} {g : List α}
    (hg : g ∈ groupRuns key l) : g ≠ [] :=
  groupRuns_ne_nil_aux key l.length l le_rfl g hg

theorem groupRuns_same_key_aux (key : α → String) :
    ∀ n, ∀ l : List α, l.length ≤ n →
      ∀ g ∈ groupRuns key l, ∀ x ∈ g, ∀ y ∈ g, key x = key y := by
  intro n
  induction n with
  | zero =>
    intro l h
    rw [List.length_eq_zero.mp (Nat.le_zero.mp h)]
    intro g hg
    simp [groupRuns] at hg
  | succ n ih =>
    intro l h g hg x hx y hy
    match l with
    | [] => simp [groupRuns] at hg
    | a :: l2 =>
      obtain ⟨r, s, hls, hgr, hkeys, _⟩ := groupRuns_shape key a l2
      rw [hgr] at hg
      rcases hg with _ | hg
      · have hxa : key x = key a := by
          rcases hx with _ | hx
          · rfl
          · exact hkeys x (by assumption)
        have hya : key y = key a := by
          rcases hy with _ | hy
          · rfl
          · exact hkeys y (by assumption)
        rw [hxa, hya]
      · have hlen : s.length ≤ n := by
          have h2 : l2.length ≤ n := Nat.le_of_succ_le_succ h
          have : s.length ≤ l2.length := by rw [hls]; simp
          omega
        exact ih s hlen g (by assumption) x hx y hy

/-- All members of one `groupRuns` group carry the same key string. -/
theorem groupRuns_same_key {key : α → String} {l : List α} {g : List α}
    (hg : g ∈ groupRuns key l) : ∀ x ∈ g, ∀ y ∈ g, key x = key y :=
  groupRuns_same_key_aux key l.length l le_rfl g hg

end GroupRunsTheory

/-- Natsort-key injectivity over the members of a list: no two distinct
attribute strings of members share a natsort key.  (Distinct strings with
equal natsort keys -- for example `"a 1"` and `"a 01"` -- are exactly what
makes `remove_duplicates` split an identity group.) -/
def KeyInjOn {α : Type} (key : α → String) (l : List α) : Prop :=
  ∀ a ∈ l, ∀ b ∈ l, natKey (key a) = natKey (key b) → key a = key b

section GroupRunsClasses

variable {α : Type}

theorem key_squeeze (key : α → String) {a0 h : α} {r t : List α}
    (hsort : List.Pairwise (nkeyRel key) (a0 :: (r ++ h :: t)))
    (hinj : KeyInjOn key (a0 :: (r ++ h :: t)))
    (hbh : key h ≠ key a0) :
    ∀ x ∈ h :: t, key x ≠ key a0 := by
  intro x hx hc
  have hhl : h ∈ a0 :: (r ++ h :: t) := by simp
  have ha0l : a0 ∈ a0 :: (r ++ h :: t) := by simp
  rcases List.mem_cons.mp hx with rfl | hxt
  · exact hbh hc
  · have le1 : nkeyRel key a0 h := (List.pairwise_cons.mp hsort).1 h (by simp)
    have hsub : List.Sublist (h :: t) (a0 :: (r ++ h :: t)) :=
      ((List.suffix_append r (h :: t)).sublist).cons a0
    have le2 : nkeyRel key h x :=
      (List.pairwise_cons.mp (hsort.sublist hsub)).1 x hxt
    have hnk : natKey (key x) = natKey (key a0) := congrArg natKey hc
    unfold nkeyRel at le1 le2
    rw [hnk] at le2
    have heqk : natKey (key h) = natKey (key a0) := keyLe_antisymm _ _ le2 le1
    exact hbh (hinj h hhl a0 ha0l heqk)

theorem groupRuns_classes_aux (key : α → String) :
    ∀ n, ∀ l : List α, l.length ≤ n →
      List.Pairwise (nkeyRel key) l → KeyInjOn key l →
      ∀ g ∈ groupRuns key l, ∀ a ∈ g, ∀ x ∈ l, key x = key a → x ∈ g := by
  intro n
  induction n with
  | zero =>
    intro l h
    rw [List.length_eq_zero.mp (Nat.le_zero.mp h)]
    intro _ _ g hg
    simp [groupRuns] at hg
  | succ n ih =>
    intro l hlen hsort hinj g hg a ha x hxl hkey
    match l with
    | [] => simp [groupRuns] at hg
    | a0 :: l2 =>
      obtain ⟨r, s, hls, hgr, hkeys, hbound⟩ := groupRuns_shape key a0 l2
      have hslen : s.length ≤ n := by
        have h2 : l2.length ≤ n := Nat.le_of_succ_le_succ hlen
        have : s.length ≤ l2.length := by rw [hls]; simp
        omega
      have hssub : ∀ z ∈ s, z ∈ a0 :: l2 := by
        intro z hz
        exact List.mem_cons_of_mem a0 (hls ▸ List.mem_append_right r hz)
      have hsqueeze : ∀ z ∈ s, key z ≠ key a0 := by
        intro z hz
        match s, hz with
        | h :: t, hz =>
          have hbh : key h ≠ key a0 := hbound h rfl
          have hsort2 : List.Pairwise (nkeyRel key) (a0 :: (r ++ h :: t)) := by
            rw [← hls]; exact hsort
          have hinj2 : KeyInjOn key (a0 :: (r ++ h :: t)) := by
            rw [← hls]; exact hinj
          exact key_squeeze key hsort2 hinj2 hbh z hz
      rw [hgr] at hg
      rcases List.mem_cons.mp hg with rfl | hgs
      · -- g is the first run a0 :: r
        have hka : key a = key a0 := by
          rcases List.mem_cons.mp ha with rfl | har
          · rfl
          · exact hkeys a har
        rcases List.mem_cons.mp hxl with rfl | hx2
        · exact List.mem_cons_self _ _
        · rw [hls] at hx2
          rcases List.mem_append.mp hx2 with hxr | hxs
          · exact List.mem_cons_of_mem a0 hxr
          · exact absurd (hkey.trans hka) (hsqueeze x hxs)
      · -- g is a later group, contained in s
        have has : a ∈ s := mem_of_mem_groupRuns hgs ha
        have hxs : x ∈ s := by
          rcases List.mem_cons.mp hxl with rfl | hx2
          · exact absurd hkey.symm (hsqueeze a has)
          · rw [hls] at hx2
            rcases List.mem_append.mp hx2 with hxr | hxs
            · exact absurd ((hkeys x hxr).symm.trans hkey) fun hc =>
                hsqueeze a has hc.symm
            · exact hxs
        have hsorts : List.Pairwise (nkeyRel key) s := by
          have hsub : List.Sublist s (a0 :: l2) := (hls ▸ (List.suffix_append r s).sublist).cons a0
          exact hsort.sublist hsub
        have hinjs : KeyInjOn key s := fun u hu v hv =>
          hinj u (hssub u hu) v (hssub v hv)
        exact ih s hslen hsorts hinjs g hgs a ha x hxs hkey

/-- Under sortedness and natsort-key injectivity, every `groupRuns` group is
the full equivalence class of its key string. -/
theorem groupRuns_classes {key : α → String} {l : List α}
    (hsort : List.Pairwise (nkeyRel key) l) (hinj : KeyInjOn key l) :
    ∀ g ∈ groupRuns key l, ∀ a ∈ g, ∀ x ∈ l, key x = key a → x ∈ g :=
  groupRuns_classes_aux key l.length l le_rfl hsort hinj

theorem groupRuns_distinct_keys_aux (key : α → String) :
    ∀ n, ∀ l : List α, l.length ≤ n →
      List.Pairwise (nkeyRel key) l → KeyInjOn key l →
      List.Pairwise (fun g1 g2 => ∀ x ∈ g1, ∀ y ∈ g2, key x ≠ key y)
        (groupRuns key l) := by
  intro n
  induction n with
  | zero =>
    intro l h
    rw [List.length_eq_zero.mp (Nat.le_zero.mp h)]
    intro _ _
    simp [groupRuns]
  | succ n ih =>
    intro l hlen hsort hinj
    match l with
    | [] => simp [groupRuns]
    | a0 :: l2 =>
      obtain ⟨r, s, hls, hgr, hkeys, hbound⟩ := groupRuns_shape key a0 l2
      have hslen : s.length ≤ n := by
        have h2 : l2.length ≤ n := Nat.le_of_succ_le_succ hlen
        have : s.length ≤ l2.length := by rw [hls]; simp
        omega
      have hssub : ∀ z ∈ s, z ∈ a0 :: l2 := by
        intro z hz
        exact List.mem_cons_of_mem a0 (hls ▸ List.mem_append_right r hz)
      have hsqueeze : ∀ z ∈ s, key z ≠ key a0 := by
        intro z hz
        match s, hz with
        | h :: t, hz =>
          have hbh : key h ≠ key a0 := hbound h rfl
          have hsort2 : List.Pairwise (nkeyRel key) (a0 :: (r ++ h :: t)) := by
            rw [← hls]; exact hsort
          have hinj2 : KeyInjOn key (a0 :: (r ++ h :: t)) := by
            rw [← hls]; exact hinj
          exact key_squeeze key hsort2 hinj2 hbh z hz
      have hsorts : List.Pairwise (nkeyRel key) s := by
        have hsub : List.Sublist s (a0 :: l2) := (hls ▸ (List.suffix_append r s).sublist).cons a0
        exact hsort.sublist hsub
      have hinjs : KeyInjOn key s := fun u hu v hv =>
        hinj u (hssub u hu) v (hssub v hv)
      rw [hgr]
      refine List.pairwise_cons.mpr ⟨?_, ih s hslen hsorts hinjs⟩
      intro g hgs x hx y hy
      have hxa : key x = key a0 := by
        rcases List.mem_cons.mp hx with rfl | hxr
        · rfl
        · exact hkeys x hxr
      have hys : y ∈ s := mem_of_mem_groupRuns hgs hy
      intro hc
      exact hsqueeze y hys (hc ▸ hxa)

/-- Under sortedness and natsort-key injectivity, distinct `groupRuns`
groups carry distinct key strings. -/
theorem groupRuns_distinct_keys {key : α → String} {l : List α}
    (hsort : List.Pairwise (nkeyRel key) l) (hinj : KeyInjOn key l) :
    List.Pairwise (fun g1 g2 => ∀ x ∈ g1, ∀ y ∈ g2, key x ≠ key y)
      (groupRuns key l) :=
  groupRuns_distinct_keys_aux key l.length l le_rfl hsort hinj

end GroupRunsClasses

section SortGroupTheory

variable {α : Type}

theorem natsorted_sorted (key : α → String) (l : List α) :
    List.Pairwise (nkeyRel key) (natsorted key l) :=
  List.sorted_insertionSort _ l

theorem natsorted_perm (key : α → String) (l : List α) :
    (natsorted key l).Perm l :=
  List.perm_insertionSort _ l

theorem mem_natsorted {key : α → String} {l : List α} {x : α} :
    x ∈ natsorted key l ↔ x ∈ l :=
  (natsorted_perm key l).mem_iff

theorem sort_group_flatten (key : α → String) (l : List α) :
    (sort_group key l).flatten = natsorted key l :=
  groupRuns_flatten key (natsorted key l)

theorem sort_group_mem {key : α → String} {l g : List α} {x : α}
    (hg : g ∈ sort_group key l) (hx : x ∈ g) : x ∈ l :=
  mem_natsorted.mp (mem_of_mem_groupRuns hg hx)

theorem sort_group_cover {key : α → String} {l : List α} {x : α} (hx : x ∈ l) :
    ∃ g ∈ sort_group key l, x ∈ g := by
  have hx2 : x ∈ natsorted key l := mem_natsorted.mpr hx
  rw [← groupRuns_flatten key (natsorted key l)] at hx2
  exact List.mem_flatten.mp hx2

theorem sort_group_ne_nil {key : α → String} {l g : List α}
    (hg : g ∈ sort_group key l) : g ≠ [] :=
  groupRuns_ne_nil hg

theorem sort_group_same_key {key : α → String} {l g : List α}
    (hg : g ∈ sort_group key l) : ∀ x ∈ g, ∀ y ∈ g, key x = key y :=
  groupRuns_same_key hg

theorem keyInjOn_natsorted {key : α → String} {l : List α}
    (hinj : KeyInjOn key l) : KeyInjOn key (natsorted key l) :=
  fun a ha b hb => hinj a (mem_natsorted.mp ha) b (mem_natsorted.mp hb)

/-- Under natsort-key injectivity, every `sort_group` group is the full
class of members with its key string. -/
theorem sort_group_classes {key : α → String} {l : List α}
    (hinj : KeyInjOn key l) :
    ∀ g ∈ sort_group key l, ∀ a ∈ g, ∀ x ∈ l, key x = key a → x ∈ g := by
  intro g hg a ha x hx hkey
  exact groupRuns_classes (natsorted_sorted key l) (keyInjOn_natsorted hinj)
    g hg a ha x (mem_natsorted.mpr hx) hkey

theorem sort_group_distinct_keys {key : α → String} {l : List α}
    (hinj : KeyInjOn key l) :
    List.Pairwise (fun g1 g2 => ∀ x ∈ g1, ∀ y ∈ g2, key x ≠ key y)
      (sort_group key l) :=
  groupRuns_distinct_keys (natsorted_sorted key l) (keyInjOn_natsorted hinj)

theorem sort_group_cross_le {key : α → String} (l : List α) :
    List.Pairwise (fun g1 g2 => ∀ x ∈ g1, ∀ y ∈ g2, nkeyRel key x y)
      (sort_group key l) := by
  have hps : List.Pairwise (nkeyRel key) ((sort_group key l).flatten) := by
    rw [sort_group_flatten]
    exact natsorted_sorted key l
  exact (List.pairwise_flatten.mp hps).2

/-- Under natsort-key injectivity, members of an earlier `sort_group` group
have strictly smaller natsort keys than members of a later group. -/
theorem sort_group_cross_lt {key : α → String} {l : List α}
    (hinj : KeyInjOn key l) :
    List.Pairwise
      (fun g1 g2 => ∀ x ∈ g1, ∀ y ∈ g2,
        keyLt (natKey (key x)) (natKey (key y)) = true)
      (sort_group key l) := by
  rw [List.pairwise_iff_forall_sublist]
  intro g1 g2 hsub
  have r1 := List.pairwise_iff_forall_sublist.mp (sort_group_cross_le l) hsub
  have r2 := List.pairwise_iff_forall_sublist.mp (sort_group_distinct_keys hinj) hsub
  have hg1 : g1 ∈ sort_group key l := hsub.subset (by simp)
  have hg2 : g2 ∈ sort_group key l := hsub.subset (by simp)
  intro x hx y hy
  refine keyLt_of_le_of_ne (r1 x hx y hy) fun heq => ?_
  exact r2 x hx y hy
    (hinj x (sort_group_mem hg1 hx) y (sort_group_mem hg2 hy) heq)

end SortGroupTheory

section NewestTheory

/-- The element delivered by `newest` for a nonempty group: it is a member
of the group and its date is lexically maximal in the group. -/
theorem newest_spec (g : List AdInfo) (hne : g ≠ []) :
    ∃ a, newest g = [a] ∧ a ∈ g ∧ ∀ x ∈ g, strLe x.date a.date = true := by
  have hperm := List.perm_insertionSort dateGeRel g
  have hsorted : List.Pairwise dateGeRel (List.insertionSort dateGeRel g) :=
    List.sorted_insertionSort dateGeRel g
  match hs : List.insertionSort dateGeRel g with
  | [] =>
    rw [hs] at hperm
    exact absurd (hperm.symm.eq_nil) hne
  | a :: rest =>
    refine ⟨a, by simp [newest, hs], ?_, ?_⟩
    · have : a ∈ List.insertionSort dateGeRel g := by rw [hs]; simp
      exact hperm.mem_iff.mp this
    · intro x hx
      have hx2 : x ∈ a :: rest := by
        rw [← hs]
        exact hperm.mem_iff.mpr hx
      rcases List.mem_cons.mp hx2 with rfl | hx3
      · exact strLe_refl _
      · rw [hs] at hsorted
        exact (List.pairwise_cons.mp hsorted).1 x hx3

theorem newest_mem {g : List AdInfo} {x : AdInfo} (hx : x ∈ newest g) : x ∈ g := by
  have h1 : x ∈ List.insertionSort dateGeRel g := List.mem_of_mem_take hx
  exact (List.perm_insertionSort dateGeRel g).mem_iff.mp h1

theorem newest_singleton (a : AdInfo) : newest [a] = [a] := rfl

theorem newest_ne_nil {g : List AdInfo} (hne : g ≠ []) : newest g ≠ [] := by
  obtain ⟨a, ha, _, _⟩ := newest_spec g hne
  rw [ha]
  simp

end NewestTheory

section PairwiseHelpers

variable {α β : Type}

theorem pairwise_of_length_le_one {R : α → α → Prop} :
    ∀ {l : List α}, l.length ≤ 1 → List.Pairwise R l
  | [], _ => List.Pairwise.nil
  | [_], _ => by simp
  | _ :: _ :: _, h => by simp at h

theorem pairwise_flatMap_of {R : β → β → Prop} {f : α → List β} {l : List α}
    (hin : ∀ g ∈ l, List.Pairwise R (f g))
    (hcross : List.Pairwise (fun g1 g2 => ∀ x ∈ f g1, ∀ y ∈ f g2, R x y) l) :
    List.Pairwise R (l.flatMap f) := by
  rw [List.flatMap_def]
  refine List.pairwise_flatten.mpr ⟨?_, ?_⟩
  · intro b hb
    obtain ⟨g, hg, rfl⟩ := List.mem_map.mp hb
    exact hin g hg
  · exact List.pairwise_map.mpr hcross

theorem keyInjOn_mono {key : α → String} {l l' : List α}
    (hsub : ∀ x ∈ l', x ∈ l) (hinj : KeyInjOn key l) : KeyInjOn key l' :=
  fun a ha b hb => hinj a (hsub a ha) b (hsub b hb)

end PairwiseHelpers

section GroupRunsBlocks

variable {α : Type}

/-- Adjacent `groupRuns` groups always carry distinct key strings (this
holds with no injectivity assumption: `groupby` splits exactly where the key
changes). -/
theorem groupRuns_chain_distinct_aux (key : α → String) :
    ∀ n, ∀ l : List α, l.length ≤ n →
      List.Chain' (fun g1 g2 => ∀ x ∈ g1, ∀ y ∈ g2, key x ≠ key y)
        (groupRuns key l) := by
  intro n
  induction n with
  | zero =>
    intro l h
    rw [List.length_eq_zero.mp (Nat.le_zero.mp h)]
    simp [groupRuns]
  | succ n ih =>
    intro l hlen
    match l with
    | [] => simp [groupRuns]
    | a0 :: l2 =>
      obtain ⟨r, s, hls, hgr, hkeys, hbound⟩ := groupRuns_shape key a0 l2
      have hslen : s.length ≤ n := by
        have h2 : l2.length ≤ n := Nat.le_of_succ_le_succ hlen
        have : s.length ≤ l2.length := by rw [hls]; simp
        omega
      rw [hgr]
      have htail := ih s hslen
      match hsm : s with
      | [] => simp [groupRuns]
      | h :: t =>
        obtain ⟨r2, s2, hls2, hgr2, hkeys2, _⟩ := groupRuns_shape key h t
        rw [hgr2]
        rw [hgr2] at htail
        refine List.Chain'.cons ?_ htail
        intro x hx y hy
        have hxa : key x = key a0 := by
          rcases List.mem_cons.mp hx with rfl | hxr
          · rfl
          · exact hkeys x hxr
        have hyh : key y = key h := by
          rcases List.mem_cons.mp hy with rfl | hyr
          · rfl
          · exact hkeys2 y hyr
        have hha : key h ≠ key a0 := hbound h rfl
        rw [hxa, hyh]
        exact fun hc => hha hc.symm

theorem groupRuns_chain_distinct (key : α → String) (l : List α) :
    List.Chain' (fun g1 g2 => ∀ x ∈ g1, ∀ y ∈ g2, key x ≠ key y)
      (groupRuns key l) :=
  groupRuns_chain_distinct_aux key l.length l le_rfl

/-- If a leading run of the head's key is followed by material starting
with a different key, `groupRuns` keeps exactly that run as first group. -/
theorem groupRuns_run_append (key : α → String) :
    ∀ (r : List α) (a : α) (s : List α),
      (∀ x ∈ r, key x = key a) →
      (∀ x, s.head? = some x → key x ≠ key a) →
      groupRuns key ((a :: r) ++ s) = (a :: r) :: groupRuns key s := by
  intro r
  induction r with
  | nil =>
    intro a s _ hs
    match s with
    | [] => rfl
    | h :: t =>
      obtain ⟨r', s', hls, hgr, hkeys', _⟩ := groupRuns_shape key a (h :: t)
      match r', hls with
      | [], hls =>
        rw [List.nil_append] at hls
        rw [← hls] at hgr
        exact hgr
      | x :: r2, hls =>
        have hxh : h = x := by
          simpa using congrArg List.head? hls
        have hka : key x = key a := hkeys' x (by simp)
        rw [← hxh] at hka
        exact absurd hka (hs h rfl)
  | cons b r2 ih =>
    intro a s hr hs
    have hba : key b = key a := hr b (by simp)
    have hr2 : ∀ x ∈ r2, key x = key b := fun x hx =>
      (hr x (by simp [hx])).trans hba.symm
    have hs2 : ∀ x, s.head? = some x → key x ≠ key b := fun x hx hc =>
      hs x hx (hc.trans hba)
    have hihr := ih b s hr2 hs2
    show (match groupRuns key ((b :: r2) ++ s) with
      | (c :: g) :: gs =>
        if key a = key c then (a :: c :: g) :: gs else [a] :: (c :: g) :: gs
      | gs => [a] :: gs) = (a :: b :: r2) :: groupRuns key s
    rw [hihr]
    simp [hba.symm]

/-- `groupRuns` recovers a block decomposition: nonempty constant-key blocks
whose adjacent keys differ concatenate to a list whose `groupRuns` is
exactly those blocks. -/
theorem groupRuns_blocks (key : α → String) :
    ∀ Bs : List (List α),
      (∀ B ∈ Bs, B ≠ []) →
      (∀ B ∈ Bs, ∀ x ∈ B, ∀ y ∈ B, key x = key y) →
      List.Chain' (fun B C => ∀ x ∈ B, ∀ y ∈ C, key x ≠ key y) Bs →
      groupRuns key Bs.flatten = Bs := by
  intro Bs
  induction Bs with
  | nil => intro _ _ _; rfl
  | cons B rest ih =>
    intro hne hsame hchain
    match B, hne B (by simp) with
    | a :: r, _ =>
      rw [List.flatten_cons]
      have hrk : ∀ x ∈ r, key x = key a :=
        fun x hx => hsame (a :: r) (by simp) x (by simp [hx]) a (by simp)
      have hbk : ∀ x, rest.flatten.head? = some x → key x ≠ key a := by
        intro x hx
        match rest, hx with
        | C :: rest2, hx =>
          match C, hne C (by simp) with
          | c :: cr, _ =>
            have hxc : x = c := by
              simp only [List.flatten_cons, List.cons_append, List.head?_cons,
                Option.some.injEq] at hx
              exact hx.symm
            have hrel := List.chain'_cons.mp hchain
            have hnac : key a ≠ key c :=
              hrel.1 a (by simp) c (by simp)
            rw [hxc]
            exact fun hc => hnac hc.symm
      rw [groupRuns_run_append key r a rest.flatten hrk hbk]
      rw [ih (fun B hB => hne B (by simp [hB]))
        (fun B hB => hsame B (by simp [hB]))
        (List.chain'_cons'.mp hchain).2]

end GroupRunsBlocks

section DedupeTheory

theorem dedupe_contact_subset {pg : List AdInfo} {x : AdInfo}
    (hx : x ∈ dedupe_contact pg) : x ∈ pg := by
  obtain ⟨cg, hcg, hx2⟩ := List.mem_flatMap.mp hx
  exact sort_group_mem hcg (newest_mem hx2)

theorem dedupe_price_subset {tg : List AdInfo} {x : AdInfo}
    (hx : x ∈ dedupe_price tg) : x ∈ tg := by
  obtain ⟨pg, hpg, hx2⟩ := List.mem_flatMap.mp hx
  exact sort_group_mem hpg (dedupe_contact_subset hx2)

/-- Every record yielded by `remove_duplicates` is one of the input ads. -/
theorem remove_duplicates_subset {ads : List AdInfo} {x : AdInfo}
    (hx : x ∈ remove_duplicates ads) : x ∈ ads := by
  obtain ⟨tg, htg, hx2⟩ := List.mem_flatMap.mp hx
  exact sort_group_mem htg (dedupe_price_subset hx2)

theorem dedupe_contact_ne_nil {pg : List AdInfo} (h : pg ≠ []) :
    dedupe_contact pg ≠ [] := by
  match pg, h with
  | a :: pg2, _ =>
    obtain ⟨g, hg, hag⟩ := sort_group_cover (show a ∈ a :: pg2 by simp)
    obtain ⟨b, hbnew, _, _⟩ := newest_spec g (sort_group_ne_nil hg)
    have hb : b ∈ dedupe_contact (a :: pg2) :=
      List.mem_flatMap.mpr ⟨g, hg, by rw [hbnew]; simp⟩
    exact List.ne_nil_of_mem hb

theorem dedupe_price_ne_nil {tg : List AdInfo} (h : tg ≠ []) :
    dedupe_price tg ≠ [] := by
  match tg, h with
  | a :: tg2, _ =>
    obtain ⟨pg, hpg, hapg⟩ := sort_group_cover (show a ∈ a :: tg2 by simp)
    have hne := dedupe_contact_ne_nil (sort_group_ne_nil hpg)
    match hm : dedupe_contact pg, hne with
    | b :: _, _ =>
      have hb : b ∈ dedupe_price (a :: tg2) :=
        List.mem_flatMap.mpr ⟨pg, hpg, by rw [hm]; simp⟩
      exact List.ne_nil_of_mem hb

theorem dedupe_contact_rep {pg : List AdInfo} {a : AdInfo} (ha : a ∈ pg) :
    ∃ r ∈ dedupe_contact pg,
      r.contact_number = a.contact_number ∧ strLe a.date r.date = true := by
  obtain ⟨g, hg, hag⟩ := sort_group_cover ha
  obtain ⟨b, hbnew, hbg, hmax⟩ := newest_spec g (sort_group_ne_nil hg)
  refine ⟨b, List.mem_flatMap.mpr ⟨g, hg, by rw [hbnew]; simp⟩, ?_, hmax a hag⟩
  exact sort_group_same_key hg b hbg a hag

theorem dedupe_price_rep {tg : List AdInfo} {a : AdInfo} (ha : a ∈ tg) :
    ∃ r ∈ dedupe_price tg, r.price = a.price ∧
      r.contact_number = a.contact_number ∧ strLe a.date r.date = true := by
  obtain ⟨pg, hpg, hapg⟩ := sort_group_cover ha
  obtain ⟨r, hr, hc, hd⟩ := dedupe_contact_rep hapg
  refine ⟨r, List.mem_flatMap.mpr ⟨pg, hpg, hr⟩, ?_, hc, hd⟩
  exact sort_group_same_key hpg r (dedupe_contact_subset hr) a hapg

/-- Every input ad has a representative in the output sharing its identity
triple and carrying an at-least-as-late date. -/
theorem remove_duplicates_rep {ads : List AdInfo} {a : AdInfo} (ha : a ∈ ads) :
    ∃ r ∈ remove_duplicates ads,
      tripleOf r = tripleOf a ∧ strLe a.date r.date = true := by
  obtain ⟨tg, htg, hatg⟩ := sort_group_cover ha
  obtain ⟨r, hr, hp, hc, hd⟩ := dedupe_price_rep hatg
  refine ⟨r, List.mem_flatMap.mpr ⟨tg, htg, hr⟩, ?_, hd⟩
  have ht := sort_group_same_key htg r (dedupe_price_subset hr) a hatg
  simp only [tripleOf, Prod.mk.injEq]
  exact ⟨ht, hp, hc⟩

theorem remove_duplicates_decomp {ads : List AdInfo} {r : AdInfo}
    (hr : r ∈ remove_duplicates ads) :
    ∃ tg ∈ sort_group (fun x => x.title) ads,
      ∃ pg ∈ sort_group (fun x => x.price) tg,
        ∃ cg ∈ sort_group (fun x => x.contact_number) pg, r ∈ newest cg := by
  obtain ⟨tg, htg, h2⟩ := List.mem_flatMap.mp hr
  obtain ⟨pg, hpg, h3⟩ := List.mem_flatMap.mp h2
  obtain ⟨cg, hcg, h4⟩ := List.mem_flatMap.mp h3
  exact ⟨tg, htg, pg, hpg, cg, hcg, h4⟩

/-- Natsort-key injectivity of all three grouping attributes over the input:
the hypothesis under which the grouping of `remove_duplicates` coincides
with partitioning by the identity triple. -/
def NatKeyInj (l : List AdInfo) : Prop :=
  KeyInjOn (fun x => x.title) l ∧ KeyInjOn (fun x => x.price) l ∧
    KeyInjOn (fun x => x.contact_number) l

/-- Under natsort-key injectivity, every output record is an input record
whose date is lexically maximal among the input records sharing its
identity triple. -/
theorem remove_duplicates_max_date {ads : List AdInfo} (hinj : NatKeyInj ads) :
    ∀ r ∈ remove_duplicates ads, r ∈ ads ∧
      ∀ x ∈ ads, tripleOf x = tripleOf r → strLe x.date r.date = true := by
  obtain ⟨hit, hip, hic⟩ := hinj
  intro r hr
  obtain ⟨tg, htg, pg, hpg, cg, hcg, hrnew⟩ := remove_duplicates_decomp hr
  have hrcg : r ∈ cg := newest_mem hrnew
  have hrpg : r ∈ pg := sort_group_mem hcg hrcg
  have hrtg : r ∈ tg := sort_group_mem hpg hrpg
  have hrads : r ∈ ads := sort_group_mem htg hrtg
  have htgsub : ∀ z ∈ tg, z ∈ ads := fun z hz => sort_group_mem htg hz
  have hpgsub : ∀ z ∈ pg, z ∈ tg := fun z hz => sort_group_mem hpg hz
  refine ⟨hrads, ?_⟩
  intro x hx htriple
  have ht : x.title = r.title := congrArg (fun p => p.1) htriple
  have hp : x.price = r.price := congrArg (fun p => p.2.1) htriple
  have hc : x.contact_number = r.contact_number := congrArg (fun p => p.2.2) htriple
  have hxtg : x ∈ tg := sort_group_classes hit tg htg r hrtg x hx ht
  have hxpg : x ∈ pg :=
    sort_group_classes (keyInjOn_mono htgsub hip) pg hpg r hrpg x hxtg hp
  have hxcg : x ∈ cg :=
    sort_group_classes (keyInjOn_mono hpgsub (keyInjOn_mono htgsub hic))
      cg hcg r hrcg x hxpg hc
  obtain ⟨b, hbnew, _, hmax⟩ := newest_spec cg (sort_group_ne_nil hcg)
  have hrb : r = b := by
    rw [hbnew] at hrnew
    simpa using hrnew
  rw [hrb]
  exact hmax x hxcg

theorem distinct_keys_symm {key : AdInfo → String} :
    Symmetric (fun g1 g2 : List AdInfo => ∀ x ∈ g1, ∀ y ∈ g2, key x ≠ key y) :=
  fun _ _ h y hy x hx hc => h x hx y hy hc.symm

/-- Under natsort-key injectivity, two output records with the same identity
triple are the same record. -/
theorem remove_duplicates_unique {ads : List AdInfo} (hinj : NatKeyInj ads) :
    ∀ r1 ∈ remove_duplicates ads, ∀ r2 ∈ remove_duplicates ads,
      tripleOf r1 = tripleOf r2 → r1 = r2 := by
  obtain ⟨hit, hip, hic⟩ := hinj
  intro r1 hr1 r2 hr2 htriple
  have ht : r1.title = r2.title := congrArg (fun p => p.1) htriple
  have hp : r1.price = r2.price := congrArg (fun p => p.2.1) htriple
  have hc : r1.contact_number = r2.contact_number := congrArg (fun p => p.2.2) htriple
  obtain ⟨tg1, htg1, pg1, hpg1, cg1, hcg1, hn1⟩ := remove_duplicates_decomp hr1
  obtain ⟨tg2, htg2, pg2, hpg2, cg2, hcg2, hn2⟩ := remove_duplicates_decomp hr2
  have h1cg : r1 ∈ cg1 := newest_mem hn1
  have h1pg : r1 ∈ pg1 := sort_group_mem hcg1 h1cg
  have h1tg : r1 ∈ tg1 := sort_group_mem hpg1 h1pg
  have h2cg : r2 ∈ cg2 := newest_mem hn2
  have h2pg : r2 ∈ pg2 := sort_group_mem hcg2 h2cg
  have h2tg : r2 ∈ tg2 := sort_group_mem hpg2 h2pg
  -- same title group
  have htgeq : tg1 = tg2 := by
    by_contra hne
    exact ((sort_group_distinct_keys hit).forall distinct_keys_symm htg1 htg2 hne)
      r1 h1tg r2 h2tg ht
  subst htgeq
  have htgsub : ∀ z ∈ tg1, z ∈ ads := fun z hz => sort_group_mem htg1 hz
  -- same price group
  have hpgeq : pg1 = pg2 := by
    by_contra hne
    exact ((sort_group_distinct_keys (keyInjOn_mono htgsub hip)).forall
      distinct_keys_symm hpg1 hpg2 hne) r1 h1pg r2 h2pg hp
  subst hpgeq
  have hpgsub : ∀ z ∈ pg1, z ∈ tg1 := fun z hz => sort_group_mem hpg1 hz
  -- same contact group
  have hcgeq : cg1 = cg2 := by
    by_contra hne
    exact ((sort_group_distinct_keys
      (keyInjOn_mono hpgsub (keyInjOn_mono htgsub hic))).forall
      distinct_keys_symm hcg1 hcg2 hne) r1 h1cg r2 h2cg hc
  subst hcgeq
  obtain ⟨b, hbnew, _, _⟩ := newest_spec cg1 (sort_group_ne_nil hcg1)
  rw [hbnew] at hn1 hn2
  simp only [List.mem_singleton] at hn1 hn2
  rw [hn1, hn2]

end DedupeTheory

section DedupeSortedness

theorem pairwise_nkeyRel_of_all_eq {key : AdInfo → String} {l : List AdInfo}
    (h : ∀ x ∈ l, ∀ y ∈ l, key x = key y) :
    List.Pairwise (nkeyRel key) l := by
  refine List.pairwise_iff_forall_sublist.mpr ?_
  intro a b hsub
  have ha : a ∈ l := hsub.subset (by simp)
  have hb : b ∈ l := hsub.subset (by simp)
  unfold nkeyRel
  rw [h a ha b hb]
  exact keyLe_refl _

theorem newest_length_le_one (g : List AdInfo) : (newest g).length ≤ 1 := by
  simp only [newest, List.length_take]
  exact min_le_left 1 _

theorem dedupe_contact_sorted_le (pg : List AdInfo) :
    List.Pairwise (nkeyRel fun x => x.contact_number) (dedupe_contact pg) := by
  refine pairwise_flatMap_of
    (fun g _ => pairwise_of_length_le_one (newest_length_le_one g)) ?_
  exact (sort_group_cross_le pg).imp fun h x hx y hy =>
    h x (newest_mem hx) y (newest_mem hy)

theorem dedupe_price_sorted_le (tg : List AdInfo) :
    List.Pairwise (nkeyRel fun x => x.price) (dedupe_price tg) := by
  refine pairwise_flatMap_of (fun pg hpg => ?_) ?_
  · exact pairwise_nkeyRel_of_all_eq fun x hx y hy =>
      sort_group_same_key hpg x (dedupe_contact_subset hx) y
        (dedupe_contact_subset hy)
  · exact (sort_group_cross_le tg).imp fun h x hx y hy =>
      h x (dedupe_contact_subset hx) y (dedupe_contact_subset hy)

theorem remove_duplicates_sorted_le (ads : List AdInfo) :
    List.Pairwise (nkeyRel fun x => x.title) (remove_duplicates ads) := by
  refine pairwise_flatMap_of (fun tg htg => ?_) ?_
  · exact pairwise_nkeyRel_of_all_eq fun x hx y hy =>
      sort_group_same_key htg x (dedupe_price_subset hx) y
        (dedupe_price_subset hy)
  · exact (sort_group_cross_le ads).imp fun h x hx y hy =>
      h x (dedupe_price_subset hx) y (dedupe_price_subset hy)

end DedupeSortedness

section DedupeIdempotence

theorem natsorted_of_sorted {key : AdInfo → String} {l : List AdInfo}
    (h : List.Pairwise (nkeyRel key) l) : natsorted key l = l :=
  List.Sorted.insertionSort_eq h

/-- `sort_group` of the output of `dedupe_contact` recovers exactly the
one-element `newest` blocks it was built from. -/
theorem dedupe_contact_regroup (pg : List AdInfo) :
    sort_group (fun x => x.contact_number) (dedupe_contact pg) =
      (sort_group (fun x => x.contact_number) pg).map newest := by
  unfold sort_group
  rw [show natsorted (fun x => x.contact_number) (dedupe_contact pg) =
      dedupe_contact pg from natsorted_of_sorted (dedupe_contact_sorted_le pg)]
  have hfl : dedupe_contact pg =
      ((sort_group (fun x => x.contact_number) pg).map newest).flatten := by
    unfold dedupe_contact
    rw [List.flatMap_def]
  rw [hfl]
  refine groupRuns_blocks _ _ ?_ ?_ ?_
  · intro B hB
    obtain ⟨g, hg, rfl⟩ := List.mem_map.mp hB
    exact newest_ne_nil (sort_group_ne_nil hg)
  · intro B hB x hx y hy
    obtain ⟨g, hg, rfl⟩ := List.mem_map.mp hB
    exact sort_group_same_key hg x (newest_mem hx) y (newest_mem hy)
  · have hch : List.Chain'
        (fun g1 g2 => ∀ x ∈ g1, ∀ y ∈ g2, x.contact_number ≠ y.contact_number)
        (sort_group (fun x => x.contact_number) pg) :=
      groupRuns_chain_distinct (fun x => x.contact_number)
        (natsorted (fun x => x.contact_number) pg)
    refine List.chain'_map_of_chain' newest ?_ hch
    intro g1 g2 h x hx y hy
    exact h x (newest_mem hx) y (newest_mem hy)

/-- Deduplicating by contact number twice equals doing it once. -/
theorem dedupe_contact_idem (pg : List AdInfo) :
    dedupe_contact (dedupe_contact pg) = dedupe_contact pg := by
  have h1 : dedupe_contact (dedupe_contact pg) =
      (sort_group (fun x => x.contact_number) (dedupe_contact pg)).flatMap
        newest := rfl
  rw [h1, dedupe_contact_regroup pg, List.flatMap_def, List.map_map]
  have hmap : (sort_group (fun x => x.contact_number) pg).map (newest ∘ newest) =
      (sort_group (fun x => x.contact_number) pg).map newest := by
    refine List.map_congr_left ?_
    intro g hg
    obtain ⟨b, hbnew, _, _⟩ := newest_spec g (sort_group_ne_nil hg)
    simp only [Function.comp_apply, hbnew]
    exact newest_singleton b
  rw [hmap, ← List.flatMap_def]
  rfl

/-- `sort_group` of the output of `dedupe_price` recovers exactly the
`dedupe_contact` blocks it was built from. -/
theorem dedupe_price_regroup (tg : List AdInfo) :
    sort_group (fun x => x.price) (dedupe_price tg) =
      (sort_group (fun x => x.price) tg).map dedupe_contact := by
  unfold sort_group
  rw [show natsorted (fun x => x.price) (dedupe_price tg) =
      dedupe_price tg from natsorted_of_sorted (dedupe_price_sorted_le tg)]
  have hfl : dedupe_price tg =
      ((sort_group (fun x => x.price) tg).map dedupe_contact).flatten := by
    unfold dedupe_price
    rw [List.flatMap_def]
  rw [hfl]
  refine groupRuns_blocks _ _ ?_ ?_ ?_
  · intro B hB
    obtain ⟨g, hg, rfl⟩ := List.mem_map.mp hB
    exact dedupe_contact_ne_nil (sort_group_ne_nil hg)
  · intro B hB x hx y hy
    obtain ⟨g, hg, rfl⟩ := List.mem_map.mp hB
    exact sort_group_same_key hg x (dedupe_contact_subset hx) y
      (dedupe_contact_subset hy)
  · have hch : List.Chain'
        (fun g1 g2 => ∀ x ∈ g1, ∀ y ∈ g2, x.price ≠ y.price)
        (sort_group (fun x => x.price) tg) :=
      groupRuns_chain_distinct (fun x => x.price)
        (natsorted (fun x => x.price) tg)
    refine List.chain'_map_of_chain' dedupe_contact ?_ hch
    intro g1 g2 h x hx y hy
    exact h x (dedupe_contact_subset hx) y (dedupe_contact_subset hy)

/-- Deduplicating a title group twice equals doing it once. -/
theorem dedupe_price_idem (tg : List AdInfo) :
    dedupe_price (dedupe_price tg) = dedupe_price tg := by
  have h1 : dedupe_price (dedupe_price tg) =
      (sort_group (fun x => x.price) (dedupe_price tg)).flatMap
        dedupe_contact := rfl
  rw [h1, dedupe_price_regroup tg, List.flatMap_def, List.map_map]
  have hmap : (sort_group (fun x => x.price) tg).map
      (dedupe_contact ∘ dedupe_contact) =
      (sort_group (fun x => x.price) tg).map dedupe_contact := by
    refine List.map_congr_left ?_
    intro g _
    simp only [Function.comp_apply]
    exact dedupe_contact_idem g
  rw [hmap, ← List.flatMap_def]
  rfl

theorem remove_duplicates_regroup (ads : List AdInfo) :
    sort_group (fun x => x.title) (remove_duplicates ads) =
      (sort_group (fun x => x.title) ads).map dedupe_price := by
  unfold sort_group
  rw [show natsorted (fun x => x.title) (remove_duplicates ads) =
      remove_duplicates ads from
      natsorted_of_sorted (remove_duplicates_sorted_le ads)]
  have hfl : remove_duplicates ads =
      ((sort_group (fun x => x.title) ads).map dedupe_price).flatten := by
    unfold remove_duplicates
    rw [List.flatMap_def]
  rw [hfl]
  refine groupRuns_blocks _ _ ?_ ?_ ?_
  · intro B hB
    obtain ⟨g, hg, rfl⟩ := List.mem_map.mp hB
    exact dedupe_price_ne_nil (sort_group_ne_nil hg)
  · intro B hB x hx y hy
    obtain ⟨g, hg, rfl⟩ := List.mem_map.mp hB
    exact sort_group_same_key hg x (dedupe_price_subset hx) y
      (dedupe_price_subset hy)
  · have hch : List.Chain'
        (fun g1 g2 => ∀ x ∈ g1, ∀ y ∈ g2, x.title ≠ y.title)
        (sort_group (fun x => x.title) ads) :=
      groupRuns_chain_distinct (fun x => x.title)
        (natsorted (fun x => x.title) ads)
    refine List.chain'_map_of_chain' dedupe_price ?_ hch
    intro g1 g2 h x hx y hy
    exact h x (dedupe_price_subset hx) y (dedupe_price_subset hy)

theorem remove_duplicates_idem_eq (ads : List AdInfo) :
    remove_duplicates (remove_duplicates ads) = remove_duplicates ads := by
  have h1 : remove_duplicates (remove_duplicates ads) =
      (sort_group (fun x => x.title) (remove_duplicates ads)).flatMap
        dedupe_price := rfl
  rw [h1, remove_duplicates_regroup ads, List.flatMap_def, List.map_map]
  have hmap : (sort_group (fun x => x.title) ads).map
      (dedupe_price ∘ dedupe_price) =
      (sort_group (fun x => x.title) ads).map dedupe_price := by
    refine List.map_congr_left ?_
    intro g _
    simp only [Function.comp_apply]
    exact dedupe_price_idem g
  rw [hmap, ← List.flatMap_def]
  rfl

end DedupeIdempotence

section DedupeStrictSortedness

/-- The output ordering the spec claims for `dedupe`: natural order of
title, ties (equal natsort keys) broken by natural order of price, then of
contact number. -/
def specOrder (a b : AdInfo) : Prop :=
  keyLt (natKey a.title) (natKey b.title) = true ∨
    (natKey a.title = natKey b.title ∧
      (keyLt (natKey a.price) (natKey b.price) = true ∨
        (natKey a.price = natKey b.price ∧
          keyLe (natKey a.contact_number) (natKey b.contact_number) = true)))

/-- The price-then-contact part of `specOrder`. -/
def specOrderPrice (a b : AdInfo) : Prop :=
  keyLt (natKey a.price) (natKey b.price) = true ∨
    (natKey a.price = natKey b.price ∧
      keyLe (natKey a.contact_number) (natKey b.contact_number) = true)

theorem dedupe_contact_sorted_lt {pg : List AdInfo}
    (hinj : KeyInjOn (fun x => x.contact_number) pg) :
    List.Pairwise
      (fun a b => keyLt (natKey a.contact_number) (natKey b.contact_number) = true)
      (dedupe_contact pg) := by
  refine pairwise_flatMap_of
    (fun g _ => pairwise_of_length_le_one (newest_length_le_one g)) ?_
  exact (sort_group_cross_lt hinj).imp fun h x hx y hy =>
    h x (newest_mem hx) y (newest_mem hy)

theorem dedupe_price_sorted_strict {tg : List AdInfo}
    (hinjp : KeyInjOn (fun x => x.price) tg)
    (hinjc : KeyInjOn (fun x => x.contact_number) tg) :
    List.Pairwise specOrderPrice (dedupe_price tg) := by
  refine pairwise_flatMap_of (fun pg hpg => ?_) ?_
  · have hpgsub : ∀ z ∈ pg, z ∈ tg := fun z hz => sort_group_mem hpg hz
    have hlt := dedupe_contact_sorted_lt (keyInjOn_mono hpgsub hinjc)
    refine List.pairwise_iff_forall_sublist.mpr ?_
    intro a b hsub
    have ha : a ∈ dedupe_contact pg := hsub.subset (by simp)
    have hb : b ∈ dedupe_contact pg := hsub.subset (by simp)
    have hpeq : a.price = b.price :=
      sort_group_same_key hpg a (dedupe_contact_subset ha) b
        (dedupe_contact_subset hb)
    exact Or.inr ⟨congrArg natKey hpeq,
      keyLe_of_lt (List.pairwise_iff_forall_sublist.mp hlt hsub)⟩
  · refine (sort_group_cross_lt hinjp).imp fun h x hx y hy => ?_
    exact Or.inl (h x (dedupe_contact_subset hx) y (dedupe_contact_subset hy))

/-- Under natsort-key injectivity of the three attributes, the output of
`remove_duplicates` is sorted by natural order of title, ties broken by
natural order of price, then contact number. -/
theorem remove_duplicates_sorted_strict {ads : List AdInfo}
    (hinj : NatKeyInj ads) :
    List.Pairwise specOrder (remove_duplicates ads) := by
  obtain ⟨hit, hip, hic⟩ := hinj
  refine pairwise_flatMap_of (fun tg htg => ?_) ?_
  · have htgsub : ∀ z ∈ tg, z ∈ ads := fun z hz => sort_group_mem htg hz
    have hstrict := dedupe_price_sorted_strict
      (keyInjOn_mono htgsub hip) (keyInjOn_mono htgsub hic)
    refine List.pairwise_iff_forall_sublist.mpr ?_
    intro a b hsub
    have ha : a ∈ dedupe_price tg := hsub.subset (by simp)
    have hb : b ∈ dedupe_price tg := hsub.subset (by simp)
    have hteq : a.title = b.title :=
      sort_group_same_key htg a (dedupe_price_subset ha) b
        (dedupe_price_subset hb)
    exact Or.inr ⟨congrArg natKey hteq,
      List.pairwise_iff_forall_sublist.mp hstrict hsub⟩
  · refine (sort_group_cross_lt hit).imp fun h x hx y hy => ?_
    exact Or.inl (h x (dedupe_price_subset hx) y (dedupe_price_subset hy))

end DedupeStrictSortedness

section Extractor

/-- The anchor sentence guaranteed to appear inside the ad-listing table
(`STRING_INSIDE_AD_TABLE` in the source). -/
def STRING_INSIDE_AD_TABLE : String :=
  "Obavezno prvo pročitajte uputstvo za bezbednu kupoprodaju preko malih oglasa."

/-- A parsed HTML node as BeautifulSoup exposes it to this program: a text
node (NavigableString) or an element with a tag name and children. -/
inductive Node where
  | text (s : String)
  | elem (name : String) (children : List Node)

/-- The Python exceptions the extraction code can raise:
`IndexError` from `soup(text=...)[0]` when the anchor text is absent,
`AttributeError` from `find_table_parent` walking past the document root,
`ValueError` from tuple unpacking with the wrong number of elements, and
`StopIteration` from `next()` on an exhausted generator. -/
inductive PyErr where
  | indexError
  | attributeError
  | valueError
  | stopIteration
deriving DecidableEq

/-- Python's `str.strip()`: drop leading and trailing whitespace characters
(modelled for the ASCII whitespace the source pages contain). -/
def pyStrip (s : String) : String :=
  String.mk
    (((s.data.dropWhile Char.isWhitespace).reverse.dropWhile
      Char.isWhitespace).reverse)

mutual
/-- BeautifulSoup's `stripped_strings`: all descendant text nodes in
document order, stripped, skipping those that strip to empty. -/
def stripped_strings : Node → List String
  | .text s => if pyStrip s = "" then [] else [pyStrip s]
  | .elem _ cs => stripped_strings_list cs

def stripped_strings_list : List Node → List String
  | [] => []
  | n :: ns => stripped_strings n ++ stripped_strings_list ns
end

mutual
/-- All text node strings of a document in document order (what
`soup(text=...)` searches). -/
def textNodes : Node → List String
  | .text s => [s]
  | .elem _ cs => textNodes_list cs

def textNodes_list : List Node → List String
  | [] => []
  | n :: ns => textNodes n ++ textNodes_list ns
end

mutual
/-- For `soup(text=s)` combined with `find_table_parent`: every text node
equal to `s`, in document order, paired with its nearest enclosing `table`
element (`none` when no ancestor is a `table`, where the Python recursion
would walk past the root and raise `AttributeError`).  `tbl` is the nearest
`table` ancestor of the node under consideration. -/
def anchorTables (s : String) (tbl : Option Node) : Node → List (Option Node)
  | .text t => if t = s then [tbl] else []
  | .elem name cs =>
    anchorTables_list s
      (if name = "table" then some (Node.elem name cs) else tbl) cs

def anchorTables_list (s : String) (tbl : Option Node) :
    List Node → List (Option Node)
  | [] => []
  | n :: ns => anchorTables s tbl n ++ anchorTables_list s tbl ns
end

/-- `find_main_table(soup)`: take the first text node equal to the anchor
string (`soup(text=STRING_INSIDE_AD_TABLE)[0]`, `IndexError` when there is
none) and walk up to the nearest enclosing `table`
(`find_table_parent`, `AttributeError` when the walk passes the root). -/
def find_main_table (root : Node) : Except PyErr Node :=
  match anchorTables STRING_INSIDE_AD_TABLE none root with
  | [] => .error .indexError
  | none :: _ => .error .attributeError
  | some t :: _ => .ok t

mutual
/-- CSS matching for `select("tr > td > table")`: all descendant `table`
elements whose parent is a `td` whose parent is a `tr`, in document order.
`p` and `gp` are the tag names of the parent and grandparent of the node
under consideration (`none` when unknown). -/
def selectTrTdTable (p gp : Option String) : Node → List Node
  | .text _ => []
  | .elem name cs =>
    (if name = "table" ∧ p = some "td" ∧ gp = some "tr" then
      [Node.elem name cs] else [])
      ++ selectTrTdTable_list (some name) p cs

def selectTrTdTable_list (p gp : Option String) : List Node → List Node
  | [] => []
  | n :: ns => selectTrTdTable p gp n ++ selectTrTdTable_list p gp ns
end

/-- `get_ad_tables(main_table)`: `main_table.select("tr > td > table")`.
`select` matches descendants only.  The grandparent name of `main_table`'s
children is outside the subtree and passed as unknown; it cannot influence
a match, because a depth-one child would need parent name `td` while its
parent is `main_table`, a `table`. -/
def get_ad_tables : Node → List Node
  | .text _ => []
  | .elem name cs => selectTrTdTable_list (some name) none cs

mutual
/-- CSS matching for `select("tr > td")`: all descendant `td` elements whose
parent is a `tr`, in document order.  `p` is the parent's tag name. -/
def selectTrTd (p : Option String) : Node → List Node
  | .text _ => []
  | .elem name cs =>
    (if name = "td" ∧ p = some "tr" then [Node.elem name cs] else [])
      ++ selectTrTd_list (some name) cs

def selectTrTd_list (p : Option String) : List Node → List Node
  | [] => []
  | n :: ns => selectTrTd p n ++ selectTrTd_list p ns
end

/-- `ad_table.select('tr > td')` (descendants only). -/
def select_tr_td : Node → List Node
  | .text _ => []
  | .elem name cs => selectTrTd_list (some name) cs

/-- `parse_ad_table(ad_table)`: unpack `ad_table.select('tr > td')` into the
title, body and contact cells (`ValueError` when there are not exactly
three); the title is the cell's stripped strings joined by single spaces;
unpack the body cell's stripped strings into price, discounted price and
description (`ValueError` when not exactly three); unpack the contact cell
into contact number and date -- when that unpacking raises `ValueError`
(fewer or more than two strings) the code takes the first stripped string
of the cell as the date (`StopIteration` when there is none) and uses the
sentinel `"N/A"` as the contact number. -/
def parse_ad_table (ad_table : Node) : Except PyErr AdInfo :=
  match select_tr_td ad_table with
  | [title_td, ad_td, contact_td] =>
    let ad_title := " ".intercalate (stripped_strings title_td)
    match stripped_strings ad_td with
    | [ad_price, ad_new_price, ad_text] =>
      match stripped_strings contact_td with
      | [ad_contact_number, ad_date] =>
        .ok ⟨ad_title, ad_price, ad_new_price, ad_text,
          ad_contact_number, ad_date⟩
      | [] => .error .stopIteration
      | ad_date :: _ =>
        .ok ⟨ad_title, ad_price, ad_new_price, ad_text, "N/A", ad_date⟩
    | _ => .error .valueError
  | _ => .error .valueError

/-- `get_ads(html)`: locate the main table and parse every ad table.  The
Python function returns a lazy generator with no exception handling around
`parse_ad_table`; `main` consumes it in full, so the first failing ad table
aborts the whole extraction with its exception and no record is delivered.
The fail-fast `mapM` models that consumption. -/
def get_ads (root : Node) : Except PyErr (List AdInfo) := do
  let main_table ← find_main_table root
  (get_ad_tables main_table).mapM parse_ad_table

mutual
theorem anchorTables_length (s : String) (tbl : Option Node) :
    ∀ n : Node, (anchorTables s tbl n).length =
      ((textNodes n).filter (fun t => decide (t = s))).length
  | .text t => by
    by_cases h : t = s <;> simp [anchorTables, textNodes, h]
  | .elem name cs => by
    simp only [anchorTables, textNodes]
    exact anchorTables_list_length s _ cs

theorem anchorTables_list_length (s : String) (tbl : Option Node) :
    ∀ l : List Node, (anchorTables_list s tbl l).length =
      ((textNodes_list l).filter (fun t => decide (t = s))).length
  | [] => rfl
  | n :: ns => by
    simp only [anchorTables_list, textNodes_list, List.filter_append,
      List.length_append]
    rw [anchorTables_length s tbl n, anchorTables_list_length s tbl ns]
end

/-- When a list has an element on which `f` fails, `mapM f` fails. -/
theorem mapM_error_of_mem {α β : Type} {f : α → Except PyErr β}
    {l : List α} {t : α} (ht : t ∈ l) {e : PyErr}
    (herr : f t = .error e) : ∃ e2, l.mapM f = Except.error e2 := by
  induction l with
  | nil => simp at ht
  | cons a l2 ih =>
    rw [List.mapM_cons]
    rcases List.mem_cons.mp ht with rfl | ht2
    · rw [herr]
      exact ⟨e, rfl⟩
    · match ha : f a with
      | .error e3 => exact ⟨e3, rfl⟩
      | .ok b =>
        obtain ⟨e2, h2⟩ := ih ht2
        rw [h2]
        exact ⟨e2, rfl⟩

end Extractor

section DecidabilityInstances

instance {α : Type} (key : α → String) (l : List α) :
    Decidable (KeyInjOn key l) := by
  unfold KeyInjOn
  exact inferInstance

instance (l : List AdInfo) : Decidable (NatKeyInj l) := by
  unfold NatKeyInj
  exact inferInstance

instance : DecidableRel specOrder := fun a b => by
  unfold specOrder
  exact inferInstance

end DecidabilityInstances

section ConcreteRecords

/-- Records used in concrete checks.  The titles `"a 1"` and `"a 01"` are
distinct strings with the same natsort key, so a record carrying the second
can sit between two records carrying the first after the stable natsort and
split their `groupby` group. -/
def cxA1 : AdInfo := ⟨"a 1", "5", "", "", "c", "2023-01-01"⟩

def cxA01 : AdInfo := ⟨"a 01", "5", "", "", "c", "2023-01-01"⟩

def cxA1new : AdInfo := ⟨"a 1", "5", "", "", "c", "2023-01-02"⟩

def cxB9 : AdInfo := ⟨"b 1", "9", "", "", "c", "2023-01-01"⟩

def cxB5 : AdInfo := ⟨"b 01", "5", "", "", "c", "2023-01-01"⟩

def adX2 : AdInfo := ⟨"Ad 2", "1", "", "", "c", "2023-01-01"⟩

def adX10 : AdInfo := ⟨"Ad 10", "1", "", "", "c", "2023-01-01"⟩

def adX1 : AdInfo := ⟨"Ad 1", "1", "", "", "c", "2023-01-01"⟩

def wDup1 : AdInfo := ⟨"W 2", "10", "", "", "065", "2023-01-01"⟩

def wDup2 : AdInfo := ⟨"W 2", "10", "", "", "065", "2023-01-03"⟩

end ConcreteRecords

theorem count_filter_ite (l : List AdInfo) (p : AdInfo → Bool) (x : AdInfo) :
    (l.filter p).count x = if p x = true then l.count x else 0 := by
  induction l with
  | nil => simp
  | cons a l2 ih =>
    by_cases hpa : p a = true
    · rw [List.filter_cons_of_pos hpa]
      by_cases hax : a = x
      · subst hax
        simp [List.count_cons_self, ih, hpa]
      · rw [List.count_cons_of_ne (fun hc => hax hc.symm),
          List.count_cons_of_ne (fun hc => hax hc.symm)] at *
        exact ih
    · rw [List.filter_cons_of_neg hpa]
      by_cases hax : a = x
      · subst hax
        rw [ih]
        by_cases hpx : p a = true
        · exact absurd hpx hpa
        · simp [hpx]
      · rw [List.count_cons_of_ne (fun hc => hax hc.symm)]
        exact ih

/-- C3: the differ's `removed` output is exactly the records of `previous`
absent (by full-value equality) from `current`, kept in `previous` order,
and `added` is exactly the records of `current` absent from `previous`,
kept in `current` order; no further reordering. -/
theorem show_diff_removed_added_exact :
    ∀ prev curr : List AdInfo,
      List.Sublist (show_diff_old_ads prev curr) prev ∧
      (∀ x, x ∈ show_diff_old_ads prev curr ↔ x ∈ prev ∧ x ∉ curr) ∧
      (∀ x, (show_diff_old_ads prev curr).count x =
        if x ∈ curr then 0 else prev.count x) ∧
      List.Sublist (show_diff_new_ads prev curr) curr ∧
      (∀ x, x ∈ show_diff_new_ads prev curr ↔ x ∈ curr ∧ x ∉ prev) ∧
      (∀ x, (show_diff_new_ads prev curr).count x =
        if x ∈ prev then 0 else curr.count x) := by
  intro prev curr
  refine ⟨List.filter_sublist prev, ?_, ?_, List.filter_sublist curr, ?_, ?_⟩
  · intro x
    simp [show_diff_old_ads, List.mem_filter]
  · intro x
    rw [show_diff_old_ads, count_filter_ite]
    by_cases hx : x ∈ curr <;> simp [hx]
  · intro x
    simp [show_diff_new_ads, List.mem_filter]
  · intro x
    rw [show_diff_new_ads, count_filter_ite]
    by_cases hx : x ∈ prev <;> simp [hx]

/-- C8: the differ is symmetric under swapping its arguments: the `removed`
list of `diff(A, B)` is the `added` list of `diff(B, A)` and conversely. -/
theorem show_diff_swap :
    ∀ A B : List AdInfo,
      show_diff_old_ads A B = show_diff_new_ads B A ∧
      show_diff_new_ads A B = show_diff_old_ads B A :=
  fun _ _ => ⟨rfl, rfl⟩

/-- C7: the deduplicator is idempotent: applying `remove_duplicates` to its
own output returns that output unchanged. -/
theorem remove_duplicates_idempotent :
    ∀ ads : List AdInfo,
      remove_duplicates (remove_duplicates ads) = remove_duplicates ads :=
  remove_duplicates_idem_eq

/-- C1 (counterexample): on input `[cxA1, cxA01, cxA1new]` the record
`cxA01`, whose distinct title shares the natsort key of `"a 1"`, stays
between the two `"a 1"` records under the stable natsort, so `groupby`
splits their identity group and the output keeps two distinct records with
the same (title, price, contact_number) triple -- refuting "exactly one
record per distinct triple". -/
theorem remove_duplicates_one_per_triple_cx :
    remove_duplicates [cxA1, cxA01, cxA1new] = [cxA1, cxA01, cxA1new] ∧
    tripleOf cxA1 = tripleOf cxA1new ∧ cxA1 ≠ cxA1new := by
  refine ⟨rfl, rfl, ?_⟩
  decide

/-- C1 (amended): the output of `remove_duplicates` consists of input
records only, covers every identity triple of the input, and is empty on
empty input; it has exactly one record per distinct triple provided no two
distinct attribute strings of the input share a natsort key (without that
proviso a group can split, as the counterexample shows). -/
theorem remove_duplicates_triples :
    ∀ ads : List AdInfo,
      (∀ r ∈ remove_duplicates ads, r ∈ ads) ∧
      (∀ a ∈ ads, ∃ r ∈ remove_duplicates ads, tripleOf r = tripleOf a) ∧
      remove_duplicates [] = [] ∧
      (NatKeyInj ads →
        ∀ r1 ∈ remove_duplicates ads, ∀ r2 ∈ remove_duplicates ads,
          tripleOf r1 = tripleOf r2 → r1 = r2) := by
  intro ads
  refine ⟨fun _ hr => remove_duplicates_subset hr, ?_, rfl,
    fun hinj => remove_duplicates_unique hinj⟩
  intro a ha
  obtain ⟨r, hr, ht, _⟩ := remove_duplicates_rep ha
  exact ⟨r, hr, ht⟩

/-- Witness for the amended C1 at a concrete input, with the injectivity
hypothesis discharged by computation. -/
theorem remove_duplicates_triples_witness :
    NatKeyInj [wDup1, wDup2] ∧
    (∀ r1 ∈ remove_duplicates [wDup1, wDup2],
      ∀ r2 ∈ remove_duplicates [wDup1, wDup2],
        tripleOf r1 = tripleOf r2 → r1 = r2) ∧
    ∃ r ∈ remove_duplicates [wDup1, wDup2], tripleOf r = tripleOf wDup1 := by
  have h := remove_duplicates_triples [wDup1, wDup2]
  have hinj : NatKeyInj [wDup1, wDup2] := by decide
  exact ⟨hinj, h.2.2.2 hinj, h.2.1 wDup1 (by decide)⟩

/-- C2 (counterexample): on input `[cxA1, cxA01, cxA1new]` the deduplicator
emits `cxA1` for the identity group it shares with `cxA1new`, although
`cxA1new` is a member of that group with a lexically greater date -- the
group was split by the natsort-key tie with `"a 01"`. -/
theorem remove_duplicates_newest_cx :
    cxA1 ∈ remove_duplicates [cxA1, cxA01, cxA1new] ∧
    cxA1new ∈ [cxA1, cxA01, cxA1new] ∧
    tripleOf cxA1new = tripleOf cxA1 ∧
    strLe cxA1new.date cxA1.date = false := by
  decide

/-- C2 (amended): provided no two distinct attribute strings of the input
share a natsort key, every record `remove_duplicates` emits is an input
member whose date is lexically maximal among the input records sharing its
identity triple. -/
theorem remove_duplicates_newest :
    ∀ ads : List AdInfo, NatKeyInj ads →
      ∀ r ∈ remove_duplicates ads, r ∈ ads ∧
        ∀ x ∈ ads, tripleOf x = tripleOf r → strLe x.date r.date = true :=
  fun _ hinj => remove_duplicates_max_date hinj

/-- Witness for the amended C2 at a concrete input. -/
theorem remove_duplicates_newest_witness :
    NatKeyInj [wDup1, wDup2] ∧
    ∀ r ∈ remove_duplicates [wDup1, wDup2], r ∈ [wDup1, wDup2] ∧
      ∀ x ∈ [wDup1, wDup2], tripleOf x = tripleOf r →
        strLe x.date r.date = true :=
  ⟨by decide, remove_duplicates_newest [wDup1, wDup2] (by decide)⟩

/-- C6 (counterexample): the titles `"b 1"` and `"b 01"` tie under natural
order (equal natsort keys), so the claimed tie-break by natural order of
price would demand the price-`"5"` record first; the stable sort leaves the
input order, with price `"9"` first, so the output violates the claimed
ordering. -/
theorem remove_duplicates_order_cx :
    remove_duplicates [cxB9, cxB5] = [cxB9, cxB5] ∧
    natKey cxB9.title = natKey cxB5.title ∧
    keyLt (natKey cxB5.price) (natKey cxB9.price) = true ∧
    ¬ List.Pairwise specOrder (remove_duplicates [cxB9, cxB5]) := by
  refine ⟨rfl, rfl, rfl, ?_⟩
  decide

/-- C6 (amended): provided no two distinct attribute strings of the input
share a natsort key, the output of `remove_duplicates` is sorted by natural
order of title with ties broken by natural order of price and then of
contact number; and the concrete titles `["Ad 2", "Ad 10", "Ad 1"]` come
out in the natural order `["Ad 1", "Ad 2", "Ad 10"]`, not the lexical one. -/
theorem remove_duplicates_order :
    (∀ ads : List AdInfo, NatKeyInj ads →
      List.Pairwise specOrder (remove_duplicates ads)) ∧
    remove_duplicates [adX2, adX10, adX1] = [adX1, adX2, adX10] :=
  ⟨fun _ hinj => remove_duplicates_sorted_strict hinj, rfl⟩

/-- Witness for the amended C6 at a concrete input. -/
theorem remove_duplicates_order_witness :
    NatKeyInj [adX2, adX10, adX1] ∧
    List.Pairwise specOrder (remove_duplicates [adX2, adX10, adX1]) :=
  ⟨by decide, remove_duplicates_order.1 [adX2, adX10, adX1] (by decide)⟩

section ConcreteDocuments

/-- A table cell whose children are the given text nodes. -/
def mkTd (ss : List String) : Node := .elem "td" (ss.map Node.text)

/-- A well-shaped ad table: three rows with one cell each (title, body,
contact). -/
def mkAdTable (title body contact : List String) : Node :=
  .elem "table" [.elem "tr" [mkTd title], .elem "tr" [mkTd body],
    .elem "tr" [mkTd contact]]

/-- The listing table: the anchor sentence plus one `tr > td`-wrapped ad
table per ad. -/
def mkMainTable (adTables : List Node) : Node :=
  .elem "table"
    (Node.text STRING_INSIDE_AD_TABLE ::
      adTables.map fun t => Node.elem "tr" [Node.elem "td" [t]])

/-- A document holding the listing table. -/
def mkDoc (adTables : List Node) : Node := .elem "html" [mkMainTable adTables]

def goodT : Node :=
  mkAdTable ["Phone X"] ["100", "90", "Good"] ["061111", "2023-01-01"]

def goodRec : AdInfo := ⟨"Phone X", "100", "90", "Good", "061111", "2023-01-01"⟩

/-- A malformed ad table: its contact row is missing entirely, so
`select('tr > td')` yields two cells instead of three. -/
def badT : Node :=
  .elem "table" [.elem "tr" [mkTd ["Phone Y"]], .elem "tr" [mkTd ["1", "2", "3"]]]

def contact1T : Node := mkAdTable ["T"] ["1", "2", "3"] ["2023-05-05"]

def contact2T : Node := mkAdTable ["T"] ["1", "2", "3"] ["061222", "2023-05-05"]

def contact3T : Node :=
  mkAdTable ["T"] ["1", "2", "3"] ["061222", "extra", "2023-05-05"]

/-- A document in which the anchor sentence does not occur. -/
def noAnchorDoc : Node := .elem "html" [.elem "table" [.text "nothing"]]

end ConcreteDocuments

/-- C4 (counterexample): a document with one malformed ad table (two cells)
followed by a well-formed one: the whole extraction fails with the
propagated `ValueError` and returns no records, although the sibling table
parses fine on its own -- refuting "skipped while the remaining well-formed
ad tables are still extracted and the run is not aborted" (there is no
`MalformedAdError` handling in the code). -/
theorem get_ads_malformed_cx :
    get_ads (mkDoc [badT, goodT]) = Except.error PyErr.valueError ∧
    parse_ad_table goodT = Except.ok goodRec :=
  ⟨rfl, rfl⟩

/-- C4 (amended): when any ad table of the located listing yields a parse
error (in particular when it does not yield exactly three cells, or its
body cell not exactly three fragments, both raising `ValueError`), the
whole extraction aborts with an error and returns no records; malformed
tables are not skipped. -/
theorem get_ads_malformed_aborts :
    ∀ (root mt t : Node), find_main_table root = Except.ok mt →
      t ∈ get_ad_tables mt → (∃ e, parse_ad_table t = Except.error e) →
      ∃ e2, get_ads root = Except.error e2 := by
  intro root mt t hmt ht herr
  obtain ⟨e, he⟩ := herr
  have hga : get_ads root = (get_ad_tables mt).mapM parse_ad_table := by
    unfold get_ads
    rw [hmt]
    rfl
  rw [hga]
  exact mapM_error_of_mem ht he

/-- Witness for the amended C4 at a concrete document. -/
theorem get_ads_malformed_aborts_witness :
    find_main_table (mkDoc [badT, goodT]) =
      Except.ok (mkMainTable [badT, goodT]) ∧
    badT ∈ get_ad_tables (mkMainTable [badT, goodT]) ∧
    ∃ e2, get_ads (mkDoc [badT, goodT]) = Except.error e2 :=
  ⟨rfl, List.mem_cons_self _ _,
    get_ads_malformed_aborts (mkDoc [badT, goodT]) (mkMainTable [badT, goodT])
      badT rfl (List.mem_cons_self _ _) ⟨PyErr.valueError, rfl⟩⟩

/-- C5: when the anchor sentence occurs nowhere in the parsed document, the
extraction fails with the `IndexError` raised at
`soup(text=STRING_INSIDE_AD_TABLE)[0]`, the failure propagates to the
caller, and no (partial) record sequence is returned.  This is the failure
the specification names `StructureNotFoundError`. -/
theorem get_ads_anchor_absent :
    ∀ root : Node, STRING_INSIDE_AD_TABLE ∉ textNodes root →
      get_ads root = Except.error PyErr.indexError ∧
      ∀ ads, get_ads root ≠ Except.ok ads := by
  intro root h
  have hlen : (anchorTables STRING_INSIDE_AD_TABLE none root).length = 0 := by
    rw [anchorTables_length, List.length_eq_zero, List.filter_eq_nil_iff]
    intro t htl
    simp only [decide_eq_true_eq]
    exact fun hc => h (hc ▸ htl)
  have hnil : anchorTables STRING_INSIDE_AD_TABLE none root = [] :=
    List.length_eq_zero.mp hlen
  have hmain : find_main_table root = Except.error PyErr.indexError := by
    unfold find_main_table
    rw [hnil]
  have hga : get_ads root = Except.error PyErr.indexError := by
    unfold get_ads
    rw [hmain]
    rfl
  refine ⟨hga, fun ads hc => ?_⟩
  rw [hga] at hc
  exact Except.noConfusion hc

/-- Witness for C5 at a concrete document without the anchor sentence. -/
theorem get_ads_anchor_absent_witness :
    STRING_INSIDE_AD_TABLE ∉ textNodes noAnchorDoc ∧
    get_ads noAnchorDoc = Except.error PyErr.indexError :=
  ⟨by decide, (get_ads_anchor_absent noAnchorDoc (by decide)).1⟩

/-- C9: for a well-formed three-cell ad table whose body cell yields three
fragments, a one-fragment contact cell makes that fragment the date with
the sentinel `"N/A"` as contact number, and a two-fragment contact cell
makes the first fragment the contact number and the second the date. -/
theorem parse_ad_table_contact_one_or_two :
    ∀ (t t1 t2 t3 : Node) (p np tx : String),
      select_tr_td t = [t1, t2, t3] →
      stripped_strings t2 = [p, np, tx] →
      (∀ d, stripped_strings t3 = [d] →
        parse_ad_table t = Except.ok
          ⟨" ".intercalate (stripped_strings t1), p, np, tx, "N/A", d⟩) ∧
      (∀ c d, stripped_strings t3 = [c, d] →
        parse_ad_table t = Except.ok
          ⟨" ".intercalate (stripped_strings t1), p, np, tx, c, d⟩) := by
  intro t t1 t2 t3 p np tx hsel hbody
  constructor
  · intro d hc
    simp [parse_ad_table, hsel, hbody, hc]
  · intro c d hc
    simp [parse_ad_table, hsel, hbody, hc]

/-- Witness for C9 at concrete one- and two-fragment contact cells. -/
theorem parse_ad_table_contact_one_or_two_witness :
    parse_ad_table contact1T =
      Except.ok ⟨"T", "1", "2", "3", "N/A", "2023-05-05"⟩ ∧
    parse_ad_table contact2T =
      Except.ok ⟨"T", "1", "2", "3", "061222", "2023-05-05"⟩ := by
  constructor
  · exact (parse_ad_table_contact_one_or_two contact1T _ _ _ "1" "2" "3"
      rfl rfl).1 "2023-05-05" rfl
  · exact (parse_ad_table_contact_one_or_two contact2T _ _ _ "1" "2" "3"
      rfl rfl).2 "061222" "2023-05-05" rfl

/-- C10: for a well-formed three-cell ad table whose contact cell yields
three or more fragments, parsing does not fail: the `ValueError` from the
two-element unpacking is caught, the record's date becomes the cell's
first fragment (the contact number position) and the contact number becomes
the sentinel `"N/A"`. -/
theorem parse_ad_table_contact_three_plus :
    ∀ (t t1 t2 t3 : Node) (p np tx f0 f1 f2 : String) (rest : List String),
      select_tr_td t = [t1, t2, t3] →
      stripped_strings t2 = [p, np, tx] →
      stripped_strings t3 = f0 :: f1 :: f2 :: rest →
      parse_ad_table t = Except.ok
        ⟨" ".intercalate (stripped_strings t1), p, np, tx, "N/A", f0⟩ := by
  intro t t1 t2 t3 p np tx f0 f1 f2 rest hsel hbody hc
  simp [parse_ad_table, hsel, hbody, hc]

/-- Witness for C10 at a concrete three-fragment contact cell. -/
theorem parse_ad_table_contact_three_plus_witness :
    parse_ad_table contact3T =
      Except.ok ⟨"T", "1", "2", "3", "N/A", "061222"⟩ :=
  parse_ad_table_contact_three_plus contact3T _ _ _ "1" "2" "3"
    "061222" "extra" "2023-05-05" [] rfl rfl rfl
